import Mathlib

/-!
Verification of the robinhood_api_trading crypto-trading client against its
specification.  The file shallowly embeds the behaviourally relevant parts of
the source:

* `src/utils/symbols.py` — symbol normalization and validation
  (strings are modelled as `List Char`; Python `str.upper`/`str.strip` are
  modelled characterwise for the ASCII range, which is the range the program
  manipulates);
* `src/api/robinhood_client.py` — the `_make_request` retry loop with its
  embedded circuit breaker, decimal order sizing (`place_market_buy_order`),
  and `_round_asset_quantity` / `place_market_sell_order`
  (Python `decimal.Decimal` arithmetic at the default context — 28
  significant digits, ROUND_HALF_EVEN — is modelled over `ℚ`);
* `src/trading/automated_strategies.py` — the stop-loss and DCA execution
  rules (`_execute_stop_loss_strategy`, `_execute_dca_strategy`,
  `_sell_position`);
* `src/storage/strategy_storage.py` — the strategy save/load round trip.

Time instants and float values are modelled as exact rationals; wall-clock
time is treated as constant during a single request (sleeps are recorded, not
performed).
-/

namespace Robinhood

/-! ## Characters and Python string primitives

Python strings are modelled as `List Char`.  `str.strip()` with no argument
removes leading and trailing whitespace; the whitespace characters occurring
in ASCII text are space, tab, newline, carriage return, vertical tab and form
feed.  `str.upper()` is modelled characterwise with the ASCII case mapping. -/

/-- Whitespace as removed by Python `str.strip()` (ASCII range). -/
def pyIsSpace (c : Char) : Bool :=
  c.toNat = 32 || c.toNat = 9 || c.toNat = 10 || c.toNat = 13 ||
    c.toNat = 11 || c.toNat = 12

/-- ASCII uppercase mapping of a single character, as done by `str.upper()`
on the character range the program manipulates. -/
def pyToUpper (c : Char) : Char :=
  if 97 ≤ c.toNat && c.toNat ≤ 122 then Char.ofNat (c.toNat - 32) else c

/-- Python `str.upper()`. -/
def pyUpper (l : List Char) : List Char := l.map pyToUpper

/-- Python `str.strip()`: drop whitespace from the front, then from the back. -/
def pyStrip (l : List Char) : List Char :=
  ((l.dropWhile pyIsSpace).reverse.dropWhile pyIsSpace).reverse

/-- The four characters of the suffix appended by the normalizer. -/
def usdSuffix : List Char := ['-', 'U', 'S', 'D']

/-- Python endswith test for the suffix `-USD`: the last four characters. -/
def endsWithUsd (l : List Char) : Bool :=
  decide (4 ≤ l.length) && decide (l.drop (l.length - 4) = usdSuffix)

/-- `normalize_symbol_to_usd` from `src/utils/symbols.py`:
strip, uppercase, and append `-USD` unless already present. -/
def normalize_symbol_to_usd (l : List Char) : List Char :=
  if endsWithUsd (pyUpper (pyStrip l)) then pyUpper (pyStrip l)
  else pyUpper (pyStrip l) ++ usdSuffix

/-- A character matched by the regex class `[A-Z0-9]`. -/
def isUpperAlnum (c : Char) : Bool :=
  (65 ≤ c.toNat && c.toNat ≤ 90) || (48 ≤ c.toNat && c.toNat ≤ 57)

/-- The anchored regex `[A-Z0-9]+-USD` (the pattern of the spec property):
at least one `[A-Z0-9]` character followed by the literal suffix `-USD`. -/
def matchesBaseUsdPattern (l : List Char) : Bool :=
  decide (5 ≤ l.length) && (l.take (l.length - 4)).all isUpperAlnum &&
    decide (l.drop (l.length - 4) = usdSuffix)

/-- The anchored regex `[A-Z0-9]+(-USD)?` from `src/utils/symbols.py`
(`_SYMBOL_RE`): either the suffixed form or a nonempty `[A-Z0-9]+` word. -/
def matchesSymbolRe (l : List Char) : Bool :=
  matchesBaseUsdPattern l || (!l.isEmpty && l.all isUpperAlnum)

/-- `validate_symbol` from `src/utils/symbols.py`: an empty string is
rejected, otherwise the stripped uppercased string is matched against
`_SYMBOL_RE`. -/
def validate_symbol (l : List Char) : Bool :=
  !l.isEmpty && matchesSymbolRe (pyUpper (pyStrip l))

/-! ### Character-level lemmas -/

theorem char_ofNat_toNat {n : ℕ} (h : n < 55296) : (Char.ofNat n).toNat = n := by
  have hv : n.isValidChar := Or.inl h
  simp only [Char.ofNat, hv, dif_pos, Char.ofNatAux, Char.toNat]
  rfl

theorem pyToUpper_toNat_of_lower {c : Char} (h₁ : 97 ≤ c.toNat) (h₂ : c.toNat ≤ 122) :
    (pyToUpper c).toNat = c.toNat - 32 := by
  have hb : (97 ≤ c.toNat && c.toNat ≤ 122) = true := by
    simp [h₁, h₂]
  rw [pyToUpper, if_pos hb]
  exact char_ofNat_toNat (by omega)

theorem pyToUpper_of_not_lower {c : Char} (h : ¬(97 ≤ c.toNat ∧ c.toNat ≤ 122)) :
    pyToUpper c = c := by
  rw [pyToUpper, if_neg]
  simpa [Bool.and_eq_true, decide_eq_true_eq] using h

theorem pyToUpper_idem (c : Char) : pyToUpper (pyToUpper c) = pyToUpper c := by
  by_cases h : 97 ≤ c.toNat ∧ c.toNat ≤ 122
  · have ht : (pyToUpper c).toNat = c.toNat - 32 := pyToUpper_toNat_of_lower h.1 h.2
    exact pyToUpper_of_not_lower (by omega)
  · rw [pyToUpper_of_not_lower h, pyToUpper_of_not_lower h]

theorem pyToUpper_not_space {c : Char} (h : pyIsSpace c = false) :
    pyIsSpace (pyToUpper c) = false := by
  by_cases hl : 97 ≤ c.toNat ∧ c.toNat ≤ 122
  · have ht : (pyToUpper c).toNat = c.toNat - 32 := pyToUpper_toNat_of_lower hl.1 hl.2
    simp only [pyIsSpace, Bool.or_eq_false_iff, decide_eq_false_iff_not, ht]
    omega
  · rw [pyToUpper_of_not_lower hl]; exact h

theorem pyUpper_usdSuffix : pyUpper usdSuffix = usdSuffix := by decide

theorem pyUpper_idem (l : List Char) : pyUpper (pyUpper l) = pyUpper l := by
  simp only [pyUpper, List.map_map]
  exact List.map_congr_left fun c _ => pyToUpper_idem c

/-! ### Strip lemmas -/

theorem dropWhile_eq_self_of_head {p : Char → Bool} {a : Char} {t : List Char}
    (h : p a = false) : (a :: t).dropWhile p = a :: t := by
  simp [List.dropWhile_cons, h]

theorem dropWhile_head_false {p : Char → Bool} :
    ∀ {l : List Char} {a : Char} {t : List Char}, l.dropWhile p = a :: t → p a = false := by
  intro l
  induction l with
  | nil => intro a t h; simp at h
  | cons b bs ih =>
    intro a t h
    rw [List.dropWhile_cons] at h
    by_cases hb : p b = true
    · rw [if_pos hb] at h; exact ih h
    · rw [if_neg hb] at h
      injection h with h1 _
      rw [← h1]
      simpa using hb

theorem pyStrip_head_not_space {l : List Char} {c : Char} {w : List Char}
    (h : pyStrip l = c :: w) : pyIsSpace c = false := by
  cases hx : l.dropWhile pyIsSpace with
  | nil => rw [pyStrip, hx] at h; simp at h
  | cons a t =>
    have ha : pyIsSpace a = false := dropWhile_head_false hx
    have hps : pyStrip l = a :: (t.reverse.dropWhile pyIsSpace).reverse := by
      rw [pyStrip, hx, List.reverse_cons, List.dropWhile_append]
      by_cases hy : (t.reverse.dropWhile pyIsSpace).isEmpty
      · rw [if_pos hy, List.isEmpty_iff.mp hy]
        simp [List.dropWhile_cons, ha]
      · rw [if_neg hy]
        simp
    rw [hps] at h
    injection h with h1 _
    rw [← h1]; exact ha

theorem pyStrip_of_heads {t : List Char} {c d : Char} {w v : List Char}
    (h1 : t = c :: w) (h2 : t.reverse = d :: v)
    (hc : pyIsSpace c = false) (hd : pyIsSpace d = false) :
    pyStrip t = t := by
  rw [pyStrip, h1, dropWhile_eq_self_of_head hc, ← h1, h2,
    dropWhile_eq_self_of_head hd, ← h2, List.reverse_reverse]

theorem reverse_append_usd (x : List Char) :
    (x ++ usdSuffix).reverse = 'D' :: 'S' :: 'U' :: '-' :: x.reverse := by
  rw [List.reverse_append]; rfl

/-! ### Suffix and pattern lemmas -/

theorem endsWithUsd_decomp {l : List Char} (h : endsWithUsd l = true) :
    l.take (l.length - 4) ++ usdSuffix = l ∧ 4 ≤ l.length := by
  unfold endsWithUsd at h
  rw [Bool.and_eq_true, decide_eq_true_eq, decide_eq_true_eq] at h
  refine ⟨?_, h.1⟩
  conv_rhs => rw [← List.take_append_drop (l.length - 4) l]
  rw [h.2]

theorem endsWithUsd_append (u : List Char) : endsWithUsd (u ++ usdSuffix) = true := by
  have hl : (u ++ usdSuffix).length = u.length + 4 := by
    rw [List.length_append]; rfl
  unfold endsWithUsd
  rw [hl]
  have h1 : u.length + 4 - 4 = u.length := by omega
  rw [h1, List.drop_left]
  simp

theorem matchesBaseUsdPattern_append (u : List Char) :
    matchesBaseUsdPattern (u ++ usdSuffix) = (!u.isEmpty && u.all isUpperAlnum) := by
  have hl : (u ++ usdSuffix).length = u.length + 4 := by
    rw [List.length_append]; rfl
  unfold matchesBaseUsdPattern
  rw [hl]
  have h1 : u.length + 4 - 4 = u.length := by omega
  rw [h1, List.take_left, List.drop_left]
  cases u with
  | nil => simp
  | cons c w =>
    have h5 : 5 ≤ (c :: w).length + 4 := by
      simp only [List.length_cons]; omega
    simp [decide_eq_true h5]

theorem endsWithUsd_of_matchesBase {l : List Char}
    (h : matchesBaseUsdPattern l = true) : endsWithUsd l = true := by
  unfold matchesBaseUsdPattern at h
  rw [Bool.and_eq_true, Bool.and_eq_true, decide_eq_true_eq, decide_eq_true_eq] at h
  unfold endsWithUsd
  rw [Bool.and_eq_true, decide_eq_true_eq, decide_eq_true_eq]
  exact ⟨by omega, h.2⟩

theorem all_isUpperAlnum_false_of_endsWithUsd {l : List Char}
    (h : endsWithUsd l = true) : l.all isUpperAlnum = false := by
  obtain ⟨hdec, _⟩ := endsWithUsd_decomp h
  rw [← hdec, List.all_append]
  have : usdSuffix.all isUpperAlnum = false := by decide
  rw [this, Bool.and_false]

theorem pyUpper_pyStrip_nil {l : List Char} (h : l = []) :
    pyUpper (pyStrip l) = [] := by
  subst h; rfl

theorem ne_nil_of_pyUpper_pyStrip {l : List Char} {c : Char} {w : List Char}
    (h : pyUpper (pyStrip l) = c :: w) : l ≠ [] := by
  intro hl
  rw [pyUpper_pyStrip_nil hl] at h
  exact List.noConfusion h

/-! ### The normalizer output is a fixed point of strip, upper and endswith -/

theorem normalize_endsWithUsd (l : List Char) :
    endsWithUsd (normalize_symbol_to_usd l) = true := by
  unfold normalize_symbol_to_usd
  by_cases he : endsWithUsd (pyUpper (pyStrip l)) = true
  · rw [if_pos he]; exact he
  · rw [if_neg he]; exact endsWithUsd_append _

theorem pyUpper_normalize (l : List Char) :
    pyUpper (normalize_symbol_to_usd l) = normalize_symbol_to_usd l := by
  unfold normalize_symbol_to_usd
  by_cases he : endsWithUsd (pyUpper (pyStrip l)) = true
  · rw [if_pos he]; exact pyUpper_idem _
  · rw [if_neg he]
    calc pyUpper (pyUpper (pyStrip l) ++ usdSuffix)
        = pyUpper (pyUpper (pyStrip l)) ++ pyUpper usdSuffix := by
          simp [pyUpper, List.map_append]
      _ = pyUpper (pyStrip l) ++ usdSuffix := by
          rw [pyUpper_idem, pyUpper_usdSuffix]

theorem pyStrip_normalize (l : List Char) :
    pyStrip (normalize_symbol_to_usd l) = normalize_symbol_to_usd l := by
  unfold normalize_symbol_to_usd
  cases hs : pyStrip l with
  | nil =>
    simp only [pyUpper, List.map_nil]
    rw [if_neg (by decide)]
    simp only [List.nil_append]
    decide
  | cons c' w' =>
    have hu : pyUpper (c' :: w') = pyToUpper c' :: pyUpper w' := rfl
    have hc : pyIsSpace (pyToUpper c') = false :=
      pyToUpper_not_space (pyStrip_head_not_space hs)
    by_cases he : endsWithUsd (pyUpper (c' :: w')) = true
    · rw [if_pos he]
      obtain ⟨hdec, _⟩ := endsWithUsd_decomp he
      have h2 : (pyUpper (c' :: w')).reverse = 'D' :: 'S' :: 'U' :: '-' ::
          (List.take ((pyUpper (c' :: w')).length - 4) (pyUpper (c' :: w'))).reverse := by
        conv_lhs => rw [← hdec]
        rw [reverse_append_usd]
      exact pyStrip_of_heads hu h2 hc (by decide)
    · rw [if_neg he]
      refine pyStrip_of_heads (t := pyUpper (c' :: w') ++ usdSuffix)
        (c := pyToUpper c') (by rw [hu]; rfl) (reverse_append_usd _) hc (by decide)

/-- Helper: the fixed-point property of the normalizer. -/
theorem normalize_fix {t : List Char} (hsf : pyStrip t = t) (huf : pyUpper t = t)
    (hef : endsWithUsd t = true) : normalize_symbol_to_usd t = t := by
  unfold normalize_symbol_to_usd
  rw [hsf, huf, if_pos hef]

/-- C7: for every input string, normalization is idempotent; the normalized
result matches the anchored pattern of one or more characters from the class
A-Z 0-9 followed by the literal suffix dash-USD exactly when `validate_symbol`
accepts the input.  (The original claim asserted the pattern for every input;
the empty string is a counterexample, see the counterexample theorem.) -/
theorem normalize_symbol_idempotent_and_pattern (l : List Char) :
    normalize_symbol_to_usd (normalize_symbol_to_usd l) = normalize_symbol_to_usd l ∧
    matchesBaseUsdPattern (normalize_symbol_to_usd l) = validate_symbol l := by
  constructor
  · exact normalize_fix (pyStrip_normalize l) (pyUpper_normalize l) (normalize_endsWithUsd l)
  · unfold validate_symbol matchesSymbolRe normalize_symbol_to_usd
    by_cases he : endsWithUsd (pyUpper (pyStrip l)) = true
    · rw [if_pos he]
      have hall : (pyUpper (pyStrip l)).all isUpperAlnum = false :=
        all_isUpperAlnum_false_of_endsWithUsd he
      obtain ⟨_, hlen⟩ := endsWithUsd_decomp he
      cases hu : pyUpper (pyStrip l) with
      | nil => rw [hu] at hlen; simp at hlen
      | cons c w =>
        have hl : l ≠ [] := ne_nil_of_pyUpper_pyStrip hu
        rw [hu] at hall
        rw [hall]
        simp [hl]
    · rw [if_neg he]
      rw [matchesBaseUsdPattern_append]
      have hmb : matchesBaseUsdPattern (pyUpper (pyStrip l)) = false := by
        cases hmb : matchesBaseUsdPattern (pyUpper (pyStrip l)) with
        | false => rfl
        | true =>
          rw [endsWithUsd_of_matchesBase hmb] at he
          exact absurd rfl he
      cases hu : pyUpper (pyStrip l) with
      | nil =>
        have hm : matchesBaseUsdPattern ([] : List Char) = false := by decide
        rw [hm]
        simp
      | cons c w =>
        have hl : l ≠ [] := ne_nil_of_pyUpper_pyStrip hu
        rw [hu] at hmb
        rw [hmb]
        simp [hl]

/-- C7 counterexample: the empty input string normalizes to the bare suffix
dash-USD, which does not match the anchored base-USD pattern, refuting the
claim that the normalized result always matches it. -/
theorem normalize_empty_not_pattern :
    matchesBaseUsdPattern (normalize_symbol_to_usd []) = false := by decide

/-! ## The request path of `RobinhoodClient` (`src/api/robinhood_client.py`)

`_make_request` is embedded as a pure transition function.  The relevant
settings (`src/config/settings.py`) are the retry and circuit-breaker
parameters; the mutable client state is the failure counter and the
circuit-open deadline.  The behaviour of the network on each attempt is an
oracle `outcomes : ℕ → Outcome` giving what `_send_request` produces on the
k-th attempt.  Wall-clock time is modelled as a rational instant `now`, held
constant for the duration of one call; the sleeps requested by the backoff
logic are recorded in the result instead of being performed.  Rate limiting,
URL construction and request signing do not affect control flow and are not
modelled. -/

/-- The settings fields consulted by `_make_request` and `_record_failure`. -/
structure RSettings where
  retryMax : ℕ
  backoffBase : ℚ
  backoffMax : ℚ
  cbThreshold : ℕ
  cbTimeout : ℚ
deriving DecidableEq

/-- Client state: `self.failure_count` and `self.circuit_open_until`. -/
structure CBState where
  failureCount : ℕ
  circuitOpenUntil : ℚ
deriving DecidableEq

/-- What one `_send_request` attempt produces: an HTTP status code, a
`requests.exceptions.Timeout`, or another `requests.exceptions.RequestException`. -/
inductive Outcome where
  | status (code : ℕ)
  | timeout
  | connError
deriving DecidableEq

/-- The success test of `_make_request`: `response.status_code in [200, 201]`. -/
def isSuccess : Outcome → Bool
  | .status c => c = 200 || c = 201
  | .timeout => false
  | .connError => false

/-- `_record_failure`: increment the counter; at or above the threshold set
`circuit_open_until = time.time() + CIRCUIT_BREAKER_TIMEOUT`.  This is called
both from `_handle_error_response` (any non-2xx status) and from the two
exception handlers of `_make_request`. -/
def recordFailure (s : RSettings) (now : ℚ) (st : CBState) : CBState :=
  { failureCount := st.failureCount + 1
    circuitOpenUntil :=
      if s.cbThreshold ≤ st.failureCount + 1 then now + s.cbTimeout
      else st.circuitOpenUntil }

/-- Result of one `_make_request` call: the returned value (`some ()` for a
parsed JSON response, `none` for failure), the final client state, the number
of attempts that reached `_send_request`, and the backoff sleeps requested
between attempts. -/
structure RunResult where
  result : Option Unit
  state : CBState
  attemptsMade : ℕ
  sleeps : List ℚ
deriving DecidableEq

/-- The backoff computed after attempt `k`:
`min(RETRY_BACKOFF_BASE * 2 ** (attempts - 1), RETRY_BACKOFF_MAX)`. -/
def backoffOf (s : RSettings) (k : ℕ) : ℚ :=
  min (s.backoffBase * 2 ^ (k - 1)) s.backoffMax

/-- The `while attempts <= RETRY_MAX` loop of `_make_request`.  `remaining` is
`RETRY_MAX + 1 - made` (the number of loop iterations the guard still
permits) and `made` the number of attempts already made.  On a 200/201 status
the failure counter resets to zero and the JSON is returned; on any other
outcome `_record_failure` runs and, if the guard permits another iteration, a
backoff sleep is recorded and the loop continues. -/
def mkLoop (s : RSettings) (now : ℚ) (outcomes : ℕ → Outcome) :
    ℕ → ℕ → CBState → RunResult
  | 0, made, st => ⟨none, st, made, []⟩
  | r + 1, made, st =>
    if isSuccess (outcomes (made + 1)) then
      ⟨some (), { st with failureCount := 0 }, made + 1, []⟩
    else
      let st1 := recordFailure s now st
      if r = 0 then ⟨none, st1, made + 1, []⟩
      else
        let res := mkLoop s now outcomes r (made + 1) st1
        { res with sleeps := backoffOf s (made + 1) :: res.sleeps }

/-- `_make_request`: if the circuit is open (`time.time() <
self.circuit_open_until`) return `None` immediately without any network
attempt; otherwise run the retry loop. -/
def makeRequest (s : RSettings) (now : ℚ) (st : CBState) (outcomes : ℕ → Outcome) :
    RunResult :=
  if now < st.circuitOpenUntil then ⟨none, st, 0, []⟩
  else mkLoop s now outcomes (s.retryMax + 1) 0 st

/-! ### Loop lemmas -/

theorem mkLoop_attempts_le (s : RSettings) (now : ℚ) (outcomes : ℕ → Outcome) :
    ∀ (r made : ℕ) (st : CBState),
      (mkLoop s now outcomes r made st).attemptsMade ≤ made + r := by
  intro r
  induction r with
  | zero => intro made st; simp [mkLoop]
  | succ r ih =>
    intro made st
    rw [mkLoop]
    by_cases hs : isSuccess (outcomes (made + 1)) = true
    · rw [if_pos hs]; simp
    · rw [if_neg hs]
      by_cases hr : r = 0
      · rw [if_pos hr]; simp
      · rw [if_neg hr]
        have := ih (made + 1) (recordFailure s now st)
        simp only []
        omega

theorem mkLoop_attempts_ge (s : RSettings) (now : ℚ) (outcomes : ℕ → Outcome)
    (r made : ℕ) (st : CBState) :
    made + 1 ≤ (mkLoop s now outcomes (r + 1) made st).attemptsMade := by
  rw [mkLoop]
  by_cases hs : isSuccess (outcomes (made + 1)) = true
  · rw [if_pos hs]
  · rw [if_neg hs]
    by_cases hr : r = 0
    · rw [if_pos hr]
    · rw [if_neg hr]
      obtain ⟨r', rfl⟩ : ∃ r', r = r' + 1 := ⟨r - 1, by omega⟩
      have := mkLoop_attempts_ge s now outcomes r' (made + 1) (recordFailure s now st)
      simp only []
      omega

theorem mkLoop_success_resets (s : RSettings) (now : ℚ) (outcomes : ℕ → Outcome) :
    ∀ (r made : ℕ) (st : CBState),
      (mkLoop s now outcomes r made st).result = some () →
      (mkLoop s now outcomes r made st).state.failureCount = 0 := by
  intro r
  induction r with
  | zero => intro made st h; simp [mkLoop] at h
  | succ r ih =>
    intro made st h
    rw [mkLoop] at h ⊢
    by_cases hs : isSuccess (outcomes (made + 1)) = true
    · rw [if_pos hs] at h ⊢
    · rw [if_neg hs] at h ⊢
      by_cases hr : r = 0
      · rw [if_pos hr] at h ⊢
        exact absurd h (by simp)
      · rw [if_neg hr] at h ⊢
        exact ih (made + 1) (recordFailure s now st) h

theorem mkLoop_openUntil_invariant (s : RSettings) (now : ℚ) (outcomes : ℕ → Outcome) :
    ∀ (r made : ℕ) (st : CBState),
      st.circuitOpenUntil = now + s.cbTimeout →
      (mkLoop s now outcomes r made st).state.circuitOpenUntil = now + s.cbTimeout := by
  intro r
  induction r with
  | zero => intro made st h; simpa [mkLoop] using h
  | succ r ih =>
    intro made st h
    rw [mkLoop]
    by_cases hs : isSuccess (outcomes (made + 1)) = true
    · rw [if_pos hs]; exact h
    · rw [if_neg hs]
      have h1 : (recordFailure s now st).circuitOpenUntil = now + s.cbTimeout := by
        unfold recordFailure
        by_cases hc : s.cbThreshold ≤ st.failureCount + 1
        · rw [if_pos hc]
        · rw [if_neg hc]; exact h
      by_cases hr : r = 0
      · rw [if_pos hr]; exact h1
      · rw [if_neg hr]
        exact ih (made + 1) (recordFailure s now st) h1

theorem mkLoop_allfail (s : RSettings) (now : ℚ) (outcomes : ℕ → Outcome)
    (hall : ∀ k, isSuccess (outcomes k) = false) :
    ∀ (r made : ℕ) (st : CBState),
      (mkLoop s now outcomes r made st).result = none ∧
      (mkLoop s now outcomes r made st).attemptsMade = made + r ∧
      (mkLoop s now outcomes r made st).state.failureCount = st.failureCount + r := by
  intro r
  induction r with
  | zero => intro made st; simp [mkLoop]
  | succ r ih =>
    intro made st
    rw [mkLoop]
    rw [if_neg (by rw [hall (made + 1)]; simp)]
    by_cases hr : r = 0
    · subst hr
      rw [if_pos rfl]
      exact ⟨rfl, rfl, rfl⟩
    · rw [if_neg hr]
      obtain ⟨h1, h2, h3⟩ := ih (made + 1) (recordFailure s now st)
      refine ⟨h1, ?_, ?_⟩
      · show (mkLoop s now outcomes r (made + 1) (recordFailure s now st)).attemptsMade =
          made + (r + 1)
        omega
      · show (mkLoop s now outcomes r (made + 1) (recordFailure s now st)).state.failureCount =
          st.failureCount + (r + 1)
        rw [h3]
        show st.failureCount + 1 + r = st.failureCount + (r + 1)
        omega

theorem mkLoop_sleeps (s : RSettings) (now : ℚ) (outcomes : ℕ → Outcome) :
    ∀ (r made : ℕ) (st : CBState),
      (mkLoop s now outcomes r made st).sleeps =
        (List.range ((mkLoop s now outcomes r made st).attemptsMade - made - 1)).map
          (fun j => backoffOf s (made + j + 1)) := by
  intro r
  induction r with
  | zero => intro made st; simp [mkLoop]
  | succ r ih =>
    intro made st
    rw [mkLoop]
    by_cases hs : isSuccess (outcomes (made + 1)) = true
    · rw [if_pos hs]; simp
    · rw [if_neg hs]
      by_cases hr : r = 0
      · rw [if_pos hr]; simp
      · rw [if_neg hr]
        simp only []
        obtain ⟨r', rfl⟩ : ∃ r', r = r' + 1 := ⟨r - 1, by omega⟩
        have hge := mkLoop_attempts_ge s now outcomes r' (made + 1) (recordFailure s now st)
        have hs' := ih (made + 1) (recordFailure s now st)
        generalize hres : mkLoop s now outcomes (r' + 1) (made + 1) (recordFailure s now st) = res
          at hge hs' ⊢
        obtain ⟨ores, ost, oatt, osleeps⟩ := res
        replace hge : made + 1 + 1 ≤ oatt := hge
        replace hs' : osleeps = List.map (fun j => backoffOf s (made + 1 + j + 1))
            (List.range (oatt - (made + 1) - 1)) := hs'
        show backoffOf s (made + 1) :: osleeps =
          List.map (fun j => backoffOf s (made + j + 1)) (List.range (oatt - made - 1))
        obtain ⟨n, hn⟩ : ∃ n, oatt - made - 1 = n + 1 :=
          ⟨oatt - made - 2, by omega⟩
        rw [hn, List.range_succ_eq_map, List.map_cons, List.map_map]
        have hn2 : oatt - (made + 1) - 1 = n := by omega
        have hhead : backoffOf s (made + 0 + 1) = backoffOf s (made + 1) := by
          norm_num
        have htail : List.map ((fun j => backoffOf s (made + j + 1)) ∘ Nat.succ)
            (List.range n) =
            List.map (fun j => backoffOf s (made + 1 + j + 1)) (List.range n) := by
          apply List.map_congr_left
          intro j _
          simp only [Function.comp_apply]
          congr 1
          omega
        rw [hs', hn2, hhead, htail]

/-! ### Claim theorems for the request path -/

/-- C1: the circuit-breaker state machine of the client.  Every failed
attempt increments the failure counter; when the counter reaches
`circuit_breaker_threshold` the open-deadline is set to
`now + circuit_breaker_timeout`; while `now < circuit_open_until` the call
returns `None` immediately with zero attempts (no network activity); and a
successful 200/201 response resets the failure counter to zero. -/
theorem circuit_breaker_state_machine (s : RSettings) (now : ℚ) (st : CBState)
    (outcomes : ℕ → Outcome) :
    (recordFailure s now st).failureCount = st.failureCount + 1 ∧
    (s.cbThreshold ≤ st.failureCount + 1 →
      (recordFailure s now st).circuitOpenUntil = now + s.cbTimeout) ∧
    (now < st.circuitOpenUntil →
      makeRequest s now st outcomes = ⟨none, st, 0, []⟩) ∧
    ((makeRequest s now st outcomes).result = some () →
      (makeRequest s now st outcomes).state.failureCount = 0) := by
  refine ⟨rfl, ?_, ?_, ?_⟩
  · intro h
    unfold recordFailure
    simp only [h, if_pos]
  · intro h
    unfold makeRequest
    rw [if_pos h]
  · intro h
    unfold makeRequest at h ⊢
    by_cases hcb : now < st.circuitOpenUntil
    · rw [if_pos hcb] at h
      exact absurd h (by simp)
    · rw [if_neg hcb] at h ⊢
      exact mkLoop_success_resets s now outcomes (s.retryMax + 1) 0 st h

/-- C1 witness: the state machine exercised at concrete inputs — a failure at
count 4 with threshold 5 trips the breaker at `17 + 60`; an open breaker
(`10 < 100`) short-circuits with zero attempts; a 200 response resets a
failure count of 7 to zero. -/
theorem circuit_breaker_state_machine_witness :
    (recordFailure ⟨3, 1/2, 8, 5, 60⟩ 17 ⟨4, 0⟩).failureCount = 5 ∧
    (recordFailure ⟨3, 1/2, 8, 5, 60⟩ 17 ⟨4, 0⟩).circuitOpenUntil = 17 + 60 ∧
    makeRequest ⟨3, 1/2, 8, 5, 60⟩ 10 ⟨0, 100⟩ (fun _ => .status 500) =
      ⟨none, ⟨0, 100⟩, 0, []⟩ ∧
    (makeRequest ⟨3, 1/2, 8, 5, 60⟩ 10 ⟨7, 0⟩ (fun _ => .status 200)).state.failureCount = 0 := by
  refine ⟨(circuit_breaker_state_machine ⟨3, 1/2, 8, 5, 60⟩ 17 ⟨4, 0⟩
      (fun _ => .status 500)).1,
    (circuit_breaker_state_machine ⟨3, 1/2, 8, 5, 60⟩ 17 ⟨4, 0⟩
      (fun _ => .status 500)).2.1 (by decide),
    (circuit_breaker_state_machine ⟨3, 1/2, 8, 5, 60⟩ 10 ⟨0, 100⟩
      (fun _ => .status 500)).2.2.1 (by norm_num),
    (circuit_breaker_state_machine ⟨3, 1/2, 8, 5, 60⟩ 10 ⟨7, 0⟩
      (fun _ => .status 200)).2.2.2 ?_⟩
  unfold makeRequest
  rw [if_neg (by norm_num), mkLoop, if_pos (by decide)]

/-- C2 counterexample: with `retry_max = 3`, a request whose every attempt
returns HTTP 404 is attempted four times — the 4xx response is retried,
refuting the claim that a 4xx status is non-retryable. -/
theorem status_404_is_retried :
    (makeRequest ⟨3, 1/2, 8, 5, 60⟩ 0 ⟨0, 0⟩ (fun _ => .status 404)).attemptsMade = 4 := by
  unfold makeRequest
  rw [if_neg (by norm_num)]
  have h := (mkLoop_allfail ⟨3, 1/2, 8, 5, 60⟩ 0 (fun _ => .status 404)
    (fun _ => rfl) ((⟨3, 1/2, 8, 5, 60⟩ : RSettings).retryMax + 1) 0 ⟨0, 0⟩).2.1
  rw [h]
  rfl

/-- C2 amended: `_make_request` treats every non-2xx outcome alike — any HTTP
status other than 200/201 (4xx included) and any transport error is retried
whenever the retry budget allows, and only a circuit-open rejection is
answered without any attempt. -/
theorem non_success_always_retried (s : RSettings) (now : ℚ) (st : CBState)
    (outcomes : ℕ → Outcome) :
    (¬ now < st.circuitOpenUntil → isSuccess (outcomes 1) = false → 1 ≤ s.retryMax →
      2 ≤ (makeRequest s now st outcomes).attemptsMade) ∧
    (now < st.circuitOpenUntil → (makeRequest s now st outcomes).attemptsMade = 0) := by
  constructor
  · intro hcb hfail hr
    unfold makeRequest
    rw [if_neg hcb, mkLoop, if_neg (by simpa using hfail), if_neg (by omega)]
    obtain ⟨r', hr'⟩ : ∃ r', s.retryMax = r' + 1 := ⟨s.retryMax - 1, by omega⟩
    rw [hr']
    exact mkLoop_attempts_ge s now outcomes r' 1 _
  · intro h
    unfold makeRequest
    rw [if_pos h]

/-- C2 amended witness: with the breaker closed, a 404 on the first attempt
and `retry_max = 3` forces at least a second attempt; with the breaker open
no attempt is made. -/
theorem non_success_always_retried_witness :
    2 ≤ (makeRequest ⟨3, 1/2, 8, 5, 60⟩ 0 ⟨0, 0⟩ (fun _ => .status 404)).attemptsMade ∧
    (makeRequest ⟨3, 1/2, 8, 5, 60⟩ 0 ⟨0, 100⟩ (fun _ => .status 404)).attemptsMade = 0 :=
  ⟨(non_success_always_retried ⟨3, 1/2, 8, 5, 60⟩ 0 ⟨0, 0⟩ (fun _ => .status 404)).1
      (by norm_num) rfl (by decide),
    (non_success_always_retried ⟨3, 1/2, 8, 5, 60⟩ 0 ⟨0, 100⟩ (fun _ => .status 404)).2
      (by norm_num)⟩

/-- C3: one logical operation performs at most `retry_max + 1` attempts; the
sleep recorded between attempt `j+1` and attempt `j+2` equals
`min(backoff_base * 2 ** j, backoff_max)`; and if every attempt fails the
caller receives `None` rather than an exception. -/
theorem retry_attempts_backoff_and_none (s : RSettings) (now : ℚ) (st : CBState)
    (outcomes : ℕ → Outcome) :
    (makeRequest s now st outcomes).attemptsMade ≤ s.retryMax + 1 ∧
    (makeRequest s now st outcomes).sleeps =
      (List.range ((makeRequest s now st outcomes).attemptsMade - 1)).map
        (fun j => min (s.backoffBase * 2 ^ j) s.backoffMax) ∧
    ((∀ k, isSuccess (outcomes k) = false) →
      (makeRequest s now st outcomes).result = none) := by
  unfold makeRequest
  by_cases hcb : now < st.circuitOpenUntil
  · rw [if_pos hcb]
    exact ⟨by simp, by simp, fun _ => rfl⟩
  · rw [if_neg hcb]
    refine ⟨?_, ?_, ?_⟩
    · simpa using mkLoop_attempts_le s now outcomes (s.retryMax + 1) 0 st
    · rw [mkLoop_sleeps s now outcomes (s.retryMax + 1) 0 st]
      have hc : (mkLoop s now outcomes (s.retryMax + 1) 0 st).attemptsMade - 0 - 1 =
          (mkLoop s now outcomes (s.retryMax + 1) 0 st).attemptsMade - 1 := by omega
      rw [hc]
      apply List.map_congr_left
      intro j _
      simp [backoffOf]
    · intro hall
      exact (mkLoop_allfail s now outcomes hall (s.retryMax + 1) 0 st).1

/-- C3 witness: with `retry_max = 3` and every attempt failing with a
timeout, at most four attempts happen and the result is `None`. -/
theorem retry_attempts_backoff_and_none_witness :
    (makeRequest ⟨3, 1/2, 8, 5, 60⟩ 0 ⟨0, 0⟩ (fun _ => .timeout)).attemptsMade ≤ 4 ∧
    (makeRequest ⟨3, 1/2, 8, 5, 60⟩ 0 ⟨0, 0⟩ (fun _ => .timeout)).result = none :=
  ⟨(retry_attempts_backoff_and_none ⟨3, 1/2, 8, 5, 60⟩ 0 ⟨0, 0⟩ (fun _ => .timeout)).1,
    (retry_attempts_backoff_and_none ⟨3, 1/2, 8, 5, 60⟩ 0 ⟨0, 0⟩ (fun _ => .timeout)).2.2
      (fun _ => rfl)⟩

/-- C9 (implicit): when the cooldown has expired the failure counter retains
its accumulated value — only a success resets it — so one further failed
attempt immediately re-arms the breaker for a full cooldown from `now`, and
if every attempt fails the counter keeps growing from its old value. -/
theorem circuit_breaker_reopen_after_cooldown (s : RSettings) (now : ℚ) (st : CBState)
    (outcomes : ℕ → Outcome)
    (hexp : st.circuitOpenUntil ≤ now)
    (hfc : s.cbThreshold ≤ st.failureCount)
    (hfail : isSuccess (outcomes 1) = false) :
    (makeRequest s now st outcomes).state.circuitOpenUntil = now + s.cbTimeout ∧
    ((∀ k, isSuccess (outcomes k) = false) →
      (makeRequest s now st outcomes).state.failureCount =
        st.failureCount + (s.retryMax + 1)) := by
  constructor
  · unfold makeRequest
    rw [if_neg (not_lt.mpr hexp), mkLoop, if_neg (by simpa using hfail)]
    have h1 : (recordFailure s now st).circuitOpenUntil = now + s.cbTimeout := by
      unfold recordFailure
      rw [if_pos (by omega)]
    by_cases hr : s.retryMax = 0
    · rw [if_pos hr]
      exact h1
    · rw [if_neg hr]
      exact mkLoop_openUntil_invariant s now outcomes s.retryMax 1 (recordFailure s now st) h1
  · intro hall
    unfold makeRequest
    rw [if_neg (not_lt.mpr hexp)]
    exact (mkLoop_allfail s now outcomes hall (s.retryMax + 1) 0 st).2.2

/-- C9 witness: counter already at the threshold (5), cooldown expired
(`40 ≤ 100`), all attempts fail with HTTP 500 — the breaker re-opens until
`100 + 60` and the counter grows to `5 + 4`. -/
theorem circuit_breaker_reopen_after_cooldown_witness :
    (makeRequest ⟨3, 1/2, 8, 5, 60⟩ 100 ⟨5, 40⟩ (fun _ => .status 500)).state.circuitOpenUntil =
      100 + 60 ∧
    (makeRequest ⟨3, 1/2, 8, 5, 60⟩ 100 ⟨5, 40⟩ (fun _ => .status 500)).state.failureCount =
      5 + 4 :=
  ⟨(circuit_breaker_reopen_after_cooldown ⟨3, 1/2, 8, 5, 60⟩ 100 ⟨5, 40⟩
      (fun _ => .status 500) (by norm_num) (by decide) rfl).1,
    (circuit_breaker_reopen_after_cooldown ⟨3, 1/2, 8, 5, 60⟩ 100 ⟨5, 40⟩
      (fun _ => .status 500) (by norm_num) (by decide) rfl).2 (fun _ => rfl)⟩

/-! ## Decimal arithmetic (`decimal.Decimal` at the default context)

`place_market_buy_order` computes `Decimal(quote_amount) / Decimal(price)`
and truncates with `quantize(Decimal(0.00000001 as a literal), ROUND_DOWN)`.
Python's default decimal context has 28 significant digits of precision with
ROUND_HALF_EVEN; division returns the correctly rounded quotient at that
precision.  Values are modelled as exact rationals (a finite decimal is an
exact rational, so this loses nothing); signed zero is not modelled. -/

/-- The exception surface relevant here: `decimal.InvalidOperation`, which
derives from `ArithmeticError`, not from `ValueError` or `TypeError`. -/
inductive PyExn where
  | invalidOperation
deriving DecidableEq

/-- Banker's rounding of a rational to an integer (ROUND_HALF_EVEN). -/
def roundHalfEven (x : ℚ) : ℤ :=
  if x - ⌊x⌋ < 1 / 2 then ⌊x⌋
  else if (1 : ℚ) / 2 < x - ⌊x⌋ then ⌊x⌋ + 1
  else if ⌊x⌋ % 2 = 0 then ⌊x⌋ else ⌊x⌋ + 1

/-- The value produced by rounding a rational to 28 significant decimal
digits with ROUND_HALF_EVEN — the result of `decimal` arithmetic at the
default context.  For a nonzero `q`, the exponent `e` places
`|q| * 10 ^ e` in `[10^27, 10^28)`, the coefficient is rounded half-even,
and the sign is reattached. -/
def decimalRound28 (q : ℚ) : ℚ :=
  if q = 0 then 0
  else
    (roundHalfEven (|q| * 10 ^ (27 - Int.log 10 |q|)) : ℚ) / 10 ^ (27 - Int.log 10 |q|) *
      (if q < 0 then -1 else 1)

/-- `Decimal` division at the default context: the exact quotient, correctly
rounded to 28 significant digits. -/
def decimalDiv28 (a b : ℚ) : ℚ := decimalRound28 (a / b)

/-- `x.quantize(Decimal(ten to the minus eight), rounding=ROUND_DOWN)`:
truncate toward zero at 8 fractional digits.  Raises `InvalidOperation` when
the resulting coefficient would exceed the 28-digit context precision. -/
def quantizeDown8 (x : ℚ) : Except PyExn ℚ :=
  if ⌊|x| * 10 ^ 8⌋ < 10 ^ 28 then
    .ok ((⌊|x| * 10 ^ 8⌋ : ℚ) / 10 ^ 8 * (if x < 0 then -1 else 1))
  else .error .invalidOperation

/-- The asset quantity computed by `place_market_buy_order` from the current
price and the quote (USD) amount: `quote / price` in `Decimal` arithmetic,
truncated to 8 fractional digits. -/
def marketBuyAssetQuantity (price quoteAmount : ℚ) : Except PyExn ℚ :=
  quantizeDown8 (decimalDiv28 quoteAmount price)

/-! ### Determination lemmas for `Int.log`, floors and half-even rounding -/

theorem int_log_eq_of {q : ℚ} {m : ℤ} (h0 : 0 < q) (h1 : (10 : ℚ) ^ m ≤ q)
    (h2 : q < (10 : ℚ) ^ (m + 1)) : Int.log 10 q = m := by
  refine le_antisymm ?_ ((Int.zpow_le_iff_le_log (by norm_num) h0).mp h1)
  have := (Int.lt_zpow_iff_log_lt (b := 10) (by norm_num) h0).mp h2
  omega

theorem roundHalfEven_of_gt_half {x : ℚ} {n : ℤ} (hn : ⌊x⌋ = n)
    (h : (1 : ℚ) / 2 < x - n) : roundHalfEven x = n + 1 := by
  unfold roundHalfEven
  rw [hn, if_neg (by linarith), if_pos h]

theorem roundHalfEven_of_lt_half {x : ℚ} {n : ℤ} (hn : ⌊x⌋ = n)
    (h : x - n < 1 / 2) : roundHalfEven x = n := by
  unfold roundHalfEven
  rw [hn, if_pos h]

/-! ### C4: market-buy sizing -/

/-- C4 amended: the computed quantity is the 8-digit truncation of the
28-significant-digit quotient.  Whenever `a / p` is itself representable at
that precision (`decimalRound28 (a / p) = a / p`) — which holds in
particular for every quotient with at most 28 significant digits — and the
quotient is below the quantize-overflow bound `10^20`, the submitted
quantity equals `floor((a/p) * 1e8) / 1e8` and never exceeds `a / p`.  For
quotients the division itself must round, the floor identity can fail
(see the counterexample theorem). -/
theorem market_buy_quantity_truncates (p a : ℚ) (hp : 0 < p) (ha : 0 < a)
    (hexact : decimalRound28 (a / p) = a / p) (hsmall : a / p < 10 ^ 20) :
    marketBuyAssetQuantity p a = .ok ((⌊(a / p) * 10 ^ 8⌋ : ℚ) / 10 ^ 8) ∧
    (⌊(a / p) * 10 ^ 8⌋ : ℚ) / 10 ^ 8 ≤ a / p := by
  have hq : 0 < a / p := div_pos ha hp
  have habs : |a / p| = a / p := abs_of_pos hq
  constructor
  · unfold marketBuyAssetQuantity decimalDiv28
    rw [hexact]
    unfold quantizeDown8
    rw [habs]
    have hbound : ⌊a / p * 10 ^ 8⌋ < 10 ^ 28 := by
      apply Int.floor_lt.mpr
      push_cast
      nlinarith
    rw [if_pos hbound, if_neg (not_lt.mpr hq.le), mul_one]
  · have h1 : (⌊a / p * 10 ^ 8⌋ : ℚ) ≤ a / p * 10 ^ 8 := Int.floor_le _
    have h2 : (⌊a / p * 10 ^ 8⌋ : ℚ) / 10 ^ 8 ≤ (a / p * 10 ^ 8) / 10 ^ 8 :=
      (div_le_div_iff_of_pos_right (show (0 : ℚ) < 10 ^ 8 by norm_num)).mpr h1
    calc (⌊a / p * 10 ^ 8⌋ : ℚ) / 10 ^ 8 ≤ (a / p * 10 ^ 8) / 10 ^ 8 := h2
      _ = a / p := by field_simp; ring

/-- Evaluation helper: one quarter is exactly representable at precision 28,
so the decimal division returns it unchanged. -/
theorem decimalRound28_quarter : decimalRound28 ((1 : ℚ) / 4) = 1 / 4 := by
  have hq0 : (0 : ℚ) < 1 / 4 := by norm_num
  have habs : |(1 : ℚ) / 4| = 1 / 4 := by norm_num
  have hlog : Int.log 10 ((1 : ℚ) / 4) = -1 := by
    apply int_log_eq_of hq0
    · norm_num
    · norm_num
  have hval : ((1 : ℚ) / 4) * (10 : ℚ) ^ (28 : ℤ) = 25 * 10 ^ 26 := by
    norm_num
  have hfloor : ⌊((1 : ℚ) / 4) * (10 : ℚ) ^ (28 : ℤ)⌋ = 25 * 10 ^ 26 := by
    rw [hval]
    norm_num
  have hrhe : roundHalfEven (((1 : ℚ) / 4) * (10 : ℚ) ^ (28 : ℤ)) = 25 * 10 ^ 26 := by
    apply roundHalfEven_of_lt_half hfloor
    rw [hval]
    push_cast
    norm_num
  unfold decimalRound28
  rw [if_neg hq0.ne', habs, hlog]
  have he : (27 : ℤ) - (-1) = 28 := by norm_num
  rw [he, hrhe, if_neg (not_lt.mpr hq0.le), mul_one]
  push_cast
  norm_num

/-- C4 amended witness: price 4 and quote amount 1 — the quotient `1/4` is
exact at precision 28, the submitted quantity is `25000000 / 1e8 = 1/4`, the
floor identity holds and the quantity does not exceed the quotient. -/
theorem market_buy_quantity_truncates_witness :
    (0 : ℚ) < 4 ∧ (0 : ℚ) < 1 ∧ ((1 : ℚ) / 4) < 10 ^ 20 ∧
    marketBuyAssetQuantity 4 1 = .ok ((⌊((1 : ℚ) / 4) * 10 ^ 8⌋ : ℚ) / 10 ^ 8) ∧
    (⌊((1 : ℚ) / 4) * 10 ^ 8⌋ : ℚ) / 10 ^ 8 ≤ 1 / 4 :=
  ⟨by norm_num, by norm_num, by norm_num,
    (market_buy_quantity_truncates 4 1 (by norm_num) (by norm_num)
      decimalRound28_quarter (by norm_num)).1,
    (market_buy_quantity_truncates 4 1 (by norm_num) (by norm_num)
      decimalRound28_quarter (by norm_num)).2⟩

/-- C4 counterexample: for price `3e28 + 1` and quote amount `3e26` the exact
quotient is just below `0.01`; `Decimal` division rounds it up to `0.01` at
28 significant digits, and truncation to 8 fractional digits then returns
`0.01000000` — strictly greater than both `floor((a/p)*1e8)/1e8 =
0.00999999` and the exact quotient `a/p`, refuting the claim that the
computed quantity always equals the floor value and never exceeds `a/p`. -/
theorem market_buy_quantity_rounds_up :
    marketBuyAssetQuantity (3 * 10 ^ 28 + 1) (3 * 10 ^ 26) = .ok (1 / 100) ∧
    (⌊((3 * 10 ^ 26 : ℚ) / (3 * 10 ^ 28 + 1)) * 10 ^ 8⌋ : ℚ) / 10 ^ 8 =
      999999 / 10 ^ 8 ∧
    ((999999 : ℚ) / 10 ^ 8 ≠ 1 / 100) ∧
    ((3 * 10 ^ 26 : ℚ) / (3 * 10 ^ 28 + 1)) < 1 / 100 := by
  set q : ℚ := (3 * 10 ^ 26 : ℚ) / (3 * 10 ^ 28 + 1) with hqdef
  have hq0 : 0 < q := by rw [hqdef]; positivity
  have habs : |q| = q := abs_of_pos hq0
  have hq4 : q < 1 / 100 := by
    rw [hqdef, div_lt_div_iff₀ (by positivity) (by norm_num)]
    norm_num
  have hlog : Int.log 10 q = -3 := by
    apply int_log_eq_of hq0
    · have h1 : (10 : ℚ) ^ (-3 : ℤ) = 1 / 1000 := by norm_num
      rw [h1, hqdef, div_le_div_iff₀ (by norm_num) (by positivity)]
      norm_num
    · have h1 : (10 : ℚ) ^ (-3 + 1 : ℤ) = 1 / 100 := by norm_num
      rw [h1]
      exact hq4
  have hx : q * (10 : ℚ) ^ (30 : ℤ) = 3 * 10 ^ 56 / (3 * 10 ^ 28 + 1) := by
    rw [hqdef, div_mul_eq_mul_div]
    norm_num
  have hfloor : ⌊q * (10 : ℚ) ^ (30 : ℤ)⌋ = 10 ^ 28 - 1 := by
    rw [hx, Int.floor_eq_iff]
    constructor
    · push_cast
      rw [le_div_iff₀ (by positivity)]
      norm_num
    · push_cast
      rw [div_lt_iff₀ (by positivity)]
      norm_num
  have hfrac : (1 : ℚ) / 2 < q * (10 : ℚ) ^ (30 : ℤ) - ((10 ^ 28 - 1 : ℤ) : ℚ) := by
    rw [hx, lt_sub_iff_add_lt]
    push_cast
    rw [lt_div_iff₀ (by positivity)]
    norm_num
  have hrhe : roundHalfEven (q * (10 : ℚ) ^ (30 : ℤ)) = 10 ^ 28 := by
    rw [roundHalfEven_of_gt_half hfloor hfrac]
    norm_num
  have hr28 : decimalRound28 q = 1 / 100 := by
    unfold decimalRound28
    rw [if_neg hq0.ne', habs, hlog]
    have he : (27 : ℤ) - (-3) = 30 := by norm_num
    rw [he, hrhe, if_neg (not_lt.mpr hq0.le), mul_one]
    push_cast
    norm_num
  refine ⟨?_, ?_, by norm_num, hq4⟩
  · unfold marketBuyAssetQuantity decimalDiv28
    rw [hr28]
    unfold quantizeDown8
    have habs2 : |(1 : ℚ) / 100| = 1 / 100 := by norm_num
    have hval2 : ((1 : ℚ) / 100) * 10 ^ 8 = 10 ^ 6 := by norm_num
    have hf2 : ⌊((1 : ℚ) / 100) * 10 ^ 8⌋ = 10 ^ 6 := by
      rw [hval2]; norm_num
    rw [habs2, hf2, if_pos (by norm_num), if_neg (by norm_num)]
    rw [mul_one]
    norm_num
  · have hf3 : ⌊q * 10 ^ 8⌋ = 999999 := by
      have hx8 : q * (10 : ℚ) ^ (8 : ℕ) = 3 * 10 ^ 34 / (3 * 10 ^ 28 + 1) := by
        rw [hqdef, div_mul_eq_mul_div]
        norm_num
      rw [hx8, Int.floor_eq_iff]
      constructor
      · push_cast
        rw [le_div_iff₀ (by positivity)]
        norm_num
      · push_cast
        rw [div_lt_iff₀ (by positivity)]
        norm_num
    rw [hf3]
    norm_num

/-! ## `_round_asset_quantity` and `place_market_sell_order`

`Decimal(str)` accepts, after stripping surrounding whitespace and removing
underscores: an optional sign followed by either a digit string with an
optional fractional part and optional exponent, or the special forms
NaN / sNaN (with optional diagnostic digits) and Inf / Infinity, all
case-insensitive.  Any other string raises `decimal.InvalidOperation`.
Unicode digits beyond ASCII are outside the modelled character range, and
signed zero is not modelled. -/

/-- A parsed `Decimal` value. -/
inductive PyDecValue where
  | num (q : ℚ)
  | nan
  | snan
  | inf (neg : Bool)
deriving DecidableEq

/-- ASCII digit test. -/
def isDigitCh (c : Char) : Bool := 48 ≤ c.toNat && c.toNat ≤ 57

/-- ASCII lowercase mapping, for the case-insensitive special forms. -/
def pyToLower (c : Char) : Char :=
  if 65 ≤ c.toNat && c.toNat ≤ 90 then Char.ofNat (c.toNat + 32) else c

/-- Value of a digit string, most significant first. -/
def digitsToNat (l : List Char) : ℕ := l.foldl (fun n c => n * 10 + (c.toNat - 48)) 0

/-- Strip one optional leading sign; `true` means negative. -/
def parseSign : List Char → Bool × List Char
  | '+' :: r => (false, r)
  | '-' :: r => (true, r)
  | l => (false, l)

/-- The special forms NaN, sNaN (each with optional diagnostic digits) and
Inf / Infinity, case-insensitively. -/
def parseSpecial (neg : Bool) (l : List Char) : Option PyDecValue :=
  let low := l.map pyToLower
  if low = ['i', 'n', 'f'] || low = ['i', 'n', 'f', 'i', 'n', 'i', 't', 'y'] then
    some (.inf neg)
  else
    match low with
    | 's' :: 'n' :: 'a' :: 'n' :: rest =>
      if rest.all isDigitCh then some .snan else none
    | 'n' :: 'a' :: 'n' :: rest =>
      if rest.all isDigitCh then some .nan else none
    | _ => none

/-- The numeric value `sign * mantissa * 10 ^ exponent`. -/
def mkDecNum (neg : Bool) (m : ℕ) (ex : ℤ) : ℚ :=
  (if neg then -1 else 1) * (m : ℚ) * 10 ^ ex

/-- An optional exponent part: empty, or `e`/`E`, optional sign, one or more
digits, nothing after. -/
def parseExpPart : List Char → Option ℤ
  | [] => some 0
  | c :: r =>
    if c = 'e' || c = 'E' then
      let sr := parseSign r
      let dd := sr.2.span isDigitCh
      if dd.1 ≠ [] ∧ dd.2 = [] then
        some (if sr.1 then -(digitsToNat dd.1 : ℤ) else (digitsToNat dd.1 : ℤ))
      else none
    else none

/-- The numeric grammar after the sign: integer digits, an optional point
with fractional digits (at least one digit in total), and an optional
exponent. -/
def parseNumeric (neg : Bool) (l : List Char) : Option PyDecValue :=
  let ipr := l.span isDigitCh
  match ipr.2 with
  | '.' :: r =>
    let fpr := r.span isDigitCh
    if ipr.1 = [] ∧ fpr.1 = [] then none
    else
      match parseExpPart fpr.2 with
      | some ex =>
        some (.num (mkDecNum neg (digitsToNat (ipr.1 ++ fpr.1)) (ex - fpr.1.length)))
      | none => none
  | _ =>
    if ipr.1 = [] then none
    else
      match parseExpPart ipr.2 with
      | some ex => some (.num (mkDecNum neg (digitsToNat ipr.1) ex))
      | none => none

/-- `Decimal(s)` for a string argument: strip surrounding whitespace, remove
underscores, take an optional sign, then a special form or the numeric
grammar.  `none` means the constructor raises `decimal.InvalidOperation`. -/
def pyDecParse (s : List Char) : Option PyDecValue :=
  let t := (pyStrip s).filter (fun c => c != '_')
  let sr := parseSign t
  match parseSpecial sr.1 sr.2 with
  | some v => some v
  | none => parseNumeric sr.1 sr.2

/-- Digits of a natural number, most significant first. -/
def natToDigitList (n : ℕ) : List Char := Nat.toDigits 10 n

/-- Left-pad a digit string with zeros to the given width. -/
def padLeftZeros (k : ℕ) (l : List Char) : List Char :=
  List.replicate (k - l.length) '0' ++ l

/-- The exponent tail of a scientific-form decimal string. -/
def printExpTail (e : ℤ) : List Char :=
  if e < 0 then 'E' :: '-' :: natToDigitList e.natAbs
  else 'E' :: '+' :: natToDigitList e.toNat

/-- `str()` of a `Decimal` with exponent `-8` (the result of the quantize
call): fixed notation when the adjusted exponent is at least `-6`
(coefficient of three or more digits), scientific notation otherwise;
`NaN` for a quiet NaN. -/
def printQuantized8 : PyDecValue → List Char
  | .num q =>
    let c : ℕ := (⌊|q| * 10 ^ 8⌋).toNat
    let sgn : List Char := if q < 0 then ['-'] else []
    if 100 ≤ c then
      sgn ++ natToDigitList (c / 10 ^ 8) ++
        '.' :: padLeftZeros 8 (natToDigitList (c % 10 ^ 8))
    else
      let ds := natToDigitList c
      sgn ++ match ds with
        | [d] => d :: printExpTail ((ds.length : ℤ) - 9)
        | d :: rest => d :: '.' :: (rest ++ printExpTail ((ds.length : ℤ) - 9))
        | [] => []
  | .nan => ['N', 'a', 'N']
  | .snan => ['s', 'N', 'a', 'N']
  | .inf neg =>
    if neg then '-' :: ['I', 'n', 'f', 'i', 'n', 'i', 't', 'y']
    else ['I', 'n', 'f', 'i', 'n', 'i', 't', 'y']

/-- `_round_asset_quantity` from `src/api/robinhood_client.py`.  The except
clause catches only `(ValueError, TypeError)`; for a string argument the
`Decimal` constructor raises `decimal.InvalidOperation` (an
`ArithmeticError`) on parse failure, so the documented fallback — returning
the original string — is unreachable and the exception propagates.  A quiet
NaN parses and quantizes to NaN; a signaling NaN or an infinity parses but
the quantize call raises `InvalidOperation`. -/
def pyRoundAssetQuantity (s : List Char) : Except PyExn (List Char) :=
  match pyDecParse s with
  | none => .error .invalidOperation
  | some (.num q) =>
    match quantizeDown8 q with
    | .ok r => .ok (printQuantized8 (.num r))
    | .error e => .error e
  | some .nan => .ok (printQuantized8 .nan)
  | some .snan => .error .invalidOperation
  | some (.inf _) => .error .invalidOperation

/-- The order request `place_market_sell_order` submits to `_make_request`
(client_order_id and the JSON envelope omitted). -/
structure OrderRequest where
  symbol : List Char
  side : List Char
  assetQuantity : List Char
deriving DecidableEq

/-- `place_market_sell_order`: builds the order payload — which calls
`_round_asset_quantity` — inside a broad `except Exception` handler that
returns `None`.  When the quantity string cannot be parsed, the
`InvalidOperation` propagates into that handler and no request is made. -/
def placeMarketSellOrder (symbol assetQuantity : List Char) : Option OrderRequest :=
  match pyRoundAssetQuantity assetQuantity with
  | .ok q => some ⟨pyUpper symbol, ['s', 'e', 'l', 'l'], q⟩
  | .error _ => none

/-- C10 (code bug): on the unparseable quantity string `abc`,
`_round_asset_quantity` does not return the input unchanged — contrary to
its own fallback comment — but raises `decimal.InvalidOperation`, which is
not in its `(ValueError, TypeError)` except clause; `place_market_sell_order`
then swallows the exception and returns `None` without submitting any
order. -/
theorem round_asset_quantity_raises_on_unparseable :
    pyRoundAssetQuantity ['a', 'b', 'c'] = .error .invalidOperation ∧
    placeMarketSellOrder ['B', 'T', 'C', '-', 'U', 'S', 'D'] ['a', 'b', 'c'] = none := by
  constructor <;> rfl

/-! ## Automated strategies (`src/trading/automated_strategies.py`)

The strategy bodies are embedded as pure functions.  Remote data obtained
through the client (current price, position value, buying power, persisted
entry price, holding quantity) and the success of order placement are
parameters; the returned pair gives the order calls issued and the persisted
state after the body.  Python float arithmetic is modelled by exact
rationals; timestamps are in seconds, so `timedelta(days=f)` adds
`f * 86400`.  A `None` or `0.0` price and a missing or `0.0` entry price are
both falsy in the source and are modelled accordingly. -/

/-- `StrategyConfig` base fields plus the `StopLossConfig` fields. -/
structure StopLossConfig where
  symbol : List Char
  enabled : Bool
  checkInterval : ℤ
  maxRetries : ℤ
  stopLossPercentage : ℚ
  profitTargetPercentage : ℚ
  positionSizeUsd : ℚ
deriving DecidableEq

/-- `StrategyConfig` base fields plus the `TrailingStopConfig` fields. -/
structure TrailingStopConfig where
  symbol : List Char
  enabled : Bool
  checkInterval : ℤ
  maxRetries : ℤ
  trailingPercentage : ℚ
  activationPercentage : ℚ
  positionSizeUsd : ℚ
deriving DecidableEq

/-- `StrategyConfig` base fields plus the `DCAConfig` fields. -/
structure DCAConfig where
  symbol : List Char
  enabled : Bool
  checkInterval : ℤ
  maxRetries : ℤ
  amountPerPurchase : ℚ
  frequencyDays : ℤ
  maxPurchases : ℤ
deriving DecidableEq

/-- Per-symbol DCA state as read from the `StateManager`: a parseable
`last_purchase_at` (a missing or unparseable timestamp reads as `none`) and
the purchase count. -/
structure DcaState where
  lastPurchaseAt : Option ℚ
  purchaseCount : ℤ
deriving DecidableEq

/-- An order call issued by a strategy body: a market buy by quote amount,
the `_sell_position` helper, or the market sell it performs. -/
inductive TradeAction where
  | buy (symbol : List Char) (quoteAmount : ℚ)
  | sellPosition (symbol : List Char)
  | sell (symbol : List Char) (assetQuantity : ℚ)
deriving DecidableEq

/-- `_execute_dca_strategy`: skip when `max_purchases` is truthy (nonzero)
and the count has reached it; skip during the frequency cooldown; otherwise
buy when buying power suffices, and on success increment the count and stamp
the purchase time.  Returns the buy calls issued and the state written
back. -/
def executeDcaStrategy (cfg : DCAConfig) (st : DcaState) (now buyingPower : ℚ)
    (buySucceeds : Bool) : List ℚ × DcaState :=
  if cfg.maxPurchases ≠ 0 ∧ cfg.maxPurchases ≤ st.purchaseCount then ([], st)
  else if (match st.lastPurchaseAt with
           | some t => decide (now < t + (cfg.frequencyDays : ℚ) * 86400)
           | none => false) then ([], st)
  else if cfg.amountPerPurchase ≤ buyingPower then
    if buySucceeds then ([cfg.amountPerPurchase], ⟨some now, st.purchaseCount + 1⟩)
    else ([cfg.amountPerPurchase], st)
  else ([], st)

/-- C5: with a nonzero `max_purchases` and a purchase count at or above it,
the DCA body issues no buy call and leaves the persisted state unchanged. -/
theorem dca_skips_at_cap (cfg : DCAConfig) (st : DcaState) (now buyingPower : ℚ)
    (buySucceeds : Bool) (hmax : cfg.maxPurchases ≠ 0)
    (hcount : cfg.maxPurchases ≤ st.purchaseCount) :
    executeDcaStrategy cfg st now buyingPower buySucceeds = ([], st) := by
  unfold executeDcaStrategy
  rw [if_pos ⟨hmax, hcount⟩]

/-- C5 witness: `max_purchases = 3` and `purchase_count = 3` — no buy call,
state unchanged, at any time, buying power and order result. -/
theorem dca_skips_at_cap_witness :
    executeDcaStrategy
      ⟨['B', 'T', 'C', '-', 'U', 'S', 'D'], true, 60, 3, 50, 7, 3⟩
      ⟨none, 3⟩ 1000 10000 true = ([], ⟨none, 3⟩) :=
  dca_skips_at_cap _ _ _ _ _ (by decide) (by decide)

/-- `_execute_stop_loss_strategy`: a falsy price aborts; with no position a
market buy is attempted when buying power covers the position size and a
successful fill records the entry price; with a position, a falsy stored
entry price is lazily replaced by the current price, the stop and target
prices are computed from the entry, and crossing either bound invokes
`_sell_position`.  Returns the calls issued and the persisted entry price
after the body. -/
def executeStopLossStrategy (cfg : StopLossConfig) (currentPrice : Option ℚ)
    (positionValue buyingPower : ℚ) (entry0 : Option ℚ) (buySucceeds : Bool) :
    List TradeAction × Option ℚ :=
  match currentPrice with
  | none => ([], entry0)
  | some p =>
    if p = 0 then ([], entry0)
    else if positionValue = 0 then
      if cfg.positionSizeUsd ≤ buyingPower then
        if buySucceeds then ([.buy cfg.symbol cfg.positionSizeUsd], some p)
        else ([.buy cfg.symbol cfg.positionSizeUsd], entry0)
      else ([], entry0)
    else
      let entry := match entry0 with
        | some e => if e = 0 then p else e
        | none => p
      if p ≤ entry * (1 - cfg.stopLossPercentage / 100) then
        ([.sellPosition cfg.symbol], some entry)
      else if entry * (1 + cfg.profitTargetPercentage / 100) ≤ p then
        ([.sellPosition cfg.symbol], some entry)
      else ([], some entry)

/-- `_sell_position`: when a holding with positive available quantity
exists, market-sell the entire quantity and clear the entry price on
success; otherwise do nothing. -/
def sellPosition (symbol : List Char) (holdingQty : Option ℚ) (sellSucceeds : Bool)
    (entry0 : Option ℚ) : List TradeAction × Option ℚ :=
  match holdingQty with
  | none => ([], entry0)
  | some hq =>
    if 0 < hq then ([.sell symbol hq], if sellSucceeds then none else entry0)
    else ([], entry0)

/-- C6: with a position and a recorded (nonzero) entry price, the stop-loss
body invokes the liquidation helper exactly when the current price is at or
below `entry * (1 - stop_loss_pct / 100)` or at or above
`entry * (1 + profit_target_pct / 100)`; and the helper sells the whole
available quantity. -/
theorem stop_loss_sell_rule (cfg : StopLossConfig) (p positionValue buyingPower e : ℚ)
    (buySucceeds : Bool) (hpv : positionValue ≠ 0) (hp : p ≠ 0) (he : e ≠ 0) :
    ((executeStopLossStrategy cfg (some p) positionValue buyingPower (some e)
        buySucceeds).1 = [.sellPosition cfg.symbol] ↔
      (p ≤ e * (1 - cfg.stopLossPercentage / 100) ∨
        e * (1 + cfg.profitTargetPercentage / 100) ≤ p)) ∧
    (∀ (sym : List Char) (hq : ℚ) (sellSucceeds : Bool) (ent : Option ℚ), 0 < hq →
      sellPosition sym (some hq) sellSucceeds ent =
        ([.sell sym hq], if sellSucceeds then none else ent)) := by
  constructor
  · simp only [executeStopLossStrategy]
    rw [if_neg hp, if_neg hpv]
    simp only [if_neg he]
    by_cases h1 : p ≤ e * (1 - cfg.stopLossPercentage / 100)
    · rw [if_pos h1]
      simp [h1]
    · rw [if_neg h1]
      by_cases h2 : e * (1 + cfg.profitTargetPercentage / 100) ≤ p
      · rw [if_pos h2]
        simp [h2]
      · rw [if_neg h2]
        simp [h1, h2]
  · intro sym hq sellSucceeds ent hq0
    simp only [sellPosition]
    rw [if_pos hq0]

/-- C6 witness: entry price 100, stop-loss 5 percent, profit target 10
percent — price `94.9` triggers the liquidation call, price `95.1` does
not; and the helper sells the full quantity 2 and clears the entry. -/
theorem stop_loss_sell_rule_witness :
    (executeStopLossStrategy
        ⟨['B', 'T', 'C', '-', 'U', 'S', 'D'], true, 60, 3, 5, 10, 100⟩
        (some (94.9 : ℚ)) 500 0 (some 100) false).1 =
      [.sellPosition ['B', 'T', 'C', '-', 'U', 'S', 'D']] ∧
    (executeStopLossStrategy
        ⟨['B', 'T', 'C', '-', 'U', 'S', 'D'], true, 60, 3, 5, 10, 100⟩
        (some (95.1 : ℚ)) 500 0 (some 100) false).1 ≠
      [.sellPosition ['B', 'T', 'C', '-', 'U', 'S', 'D']] ∧
    sellPosition ['B', 'T', 'C', '-', 'U', 'S', 'D'] (some 2) true (some 100) =
      ([.sell ['B', 'T', 'C', '-', 'U', 'S', 'D'] 2], none) := by
  refine ⟨?_, ?_, ?_⟩
  · exact (stop_loss_sell_rule _ _ _ _ _ _ (by norm_num) (by norm_num) (by norm_num)).1.mpr
      (Or.inl (by norm_num))
  · intro h
    rcases (stop_loss_sell_rule _ (95.1 : ℚ) 500 0 100 false
        (by norm_num) (by norm_num) (by norm_num)).1.mp h with h1 | h1 <;>
      norm_num at h1
  · exact (stop_loss_sell_rule
        ⟨['B', 'T', 'C', '-', 'U', 'S', 'D'], true, 60, 3, 5, 10, 100⟩
        1 1 0 1 false (by norm_num) (by norm_num) (by norm_num)).2
      ['B', 'T', 'C', '-', 'U', 'S', 'D'] 2 true (some 100) (by norm_num)

/-! ## Strategy persistence (`src/storage/strategy_storage.py`)

`save` serializes the config mapping to a list of records, each the
`asdict` of the config plus a `strategy_type` tag chosen by the key prefix
(`stop_loss` / `dca` / `trailing_stop`, checked in that order; other keys
are skipped).  `load` rebuilds each record's config class from its tag —
an unknown tag is skipped, a tag whose field set does not match the stored
fields makes the dataclass constructor raise `TypeError` — and keys it as
tag underscore symbol.  The mapping is modelled as an association list in
insertion order; the `asdict` of a config is modelled by the config value
itself, since `asdict` is injective per class and JSON round-trips its
primitive field values exactly. -/

/-- A persisted strategy config, tagged by its dataclass. -/
inductive AnyStrategyConfig where
  | stopLoss (c : StopLossConfig)
  | dca (c : DCAConfig)
  | trailingStop (c : TrailingStopConfig)
deriving DecidableEq

/-- The symbol field of a config. -/
def AnyStrategyConfig.symbol : AnyStrategyConfig → List Char
  | .stopLoss c => c.symbol
  | .dca c => c.symbol
  | .trailingStop c => c.symbol

/-- The `stop_loss` tag string. -/
def stopLossTag : List Char := ['s', 't', 'o', 'p', '_', 'l', 'o', 's', 's']

/-- The `dca` tag string. -/
def dcaTag : List Char := ['d', 'c', 'a']

/-- The `trailing_stop` tag string. -/
def trailingStopTag : List Char :=
  ['t', 'r', 'a', 'i', 'l', 'i', 'n', 'g', '_', 's', 't', 'o', 'p']

/-- One record of the strategies file: the `strategy_type` tag and the
config fields. -/
structure StoredRecord where
  strategyType : List Char
  fields : AnyStrategyConfig
deriving DecidableEq

/-- `StrategyStorage.save`: tag each entry by its key prefix, skipping keys
with none of the three prefixes. -/
def saveStrategies : List (List Char × AnyStrategyConfig) → List StoredRecord
  | [] => []
  | (key, c) :: rest =>
    if stopLossTag.isPrefixOf key then ⟨stopLossTag, c⟩ :: saveStrategies rest
    else if dcaTag.isPrefixOf key then ⟨dcaTag, c⟩ :: saveStrategies rest
    else if trailingStopTag.isPrefixOf key then ⟨trailingStopTag, c⟩ :: saveStrategies rest
    else saveStrategies rest

/-- `StrategyStorage.load`: rebuild each record's config from its tag, keyed
by tag underscore symbol; skip unknown tags; `TypeError` (modelled as
`.error`) when the tag does not match the stored field set. -/
def loadStrategies : List StoredRecord → Except Unit (List (List Char × AnyStrategyConfig))
  | [] => .ok []
  | ⟨tag, c⟩ :: rest =>
    if tag = stopLossTag then
      match c with
      | .stopLoss sc => do
        let r ← loadStrategies rest
        .ok ((stopLossTag ++ '_' :: sc.symbol, .stopLoss sc) :: r)
      | _ => .error ()
    else if tag = dcaTag then
      match c with
      | .dca dc => do
        let r ← loadStrategies rest
        .ok ((dcaTag ++ '_' :: dc.symbol, .dca dc) :: r)
      | _ => .error ()
    else if tag = trailingStopTag then
      match c with
      | .trailingStop tc => do
        let r ← loadStrategies rest
        .ok ((trailingStopTag ++ '_' :: tc.symbol, .trailingStop tc) :: r)
      | _ => .error ()
    else loadStrategies rest

/-- A well-formed entry as produced by the add-strategy methods: the key is
the tag of the config's own class, an underscore, and the config's symbol. -/
def wellFormedEntry : List Char × AnyStrategyConfig → Bool
  | (k, .stopLoss c) => decide (k = stopLossTag ++ '_' :: c.symbol)
  | (k, .dca c) => decide (k = dcaTag ++ '_' :: c.symbol)
  | (k, .trailingStop c) => decide (k = trailingStopTag ++ '_' :: c.symbol)

theorem isPrefixOf_append_self (l r : List Char) : l.isPrefixOf (l ++ r) = true := by
  induction l with
  | nil => simp [List.isPrefixOf]
  | cons a t ih => simp [List.isPrefixOf, ih]

/-- C8: saving a mapping of well-formed entries and loading the result
yields the same mapping — same keys in the same order, each mapped to a
config with identical field values. -/
theorem strategy_storage_round_trip (m : List (List Char × AnyStrategyConfig))
    (hwf : ∀ e ∈ m, wellFormedEntry e = true) :
    loadStrategies (saveStrategies m) = .ok m := by
  induction m with
  | nil => rfl
  | cons e rest ih =>
    have hrest := ih (fun x hx => hwf x (List.mem_cons_of_mem e hx))
    have he : wellFormedEntry e = true := hwf e (List.mem_cons_self e rest)
    obtain ⟨k, c⟩ := e
    cases c with
    | stopLoss sc =>
      have hk : k = stopLossTag ++ '_' :: sc.symbol := by
        simpa [wellFormedEntry] using he
      subst hk
      rw [saveStrategies, if_pos (isPrefixOf_append_self _ _)]
      rw [loadStrategies]
      rw [if_pos rfl]
      rw [hrest]
      rfl
    | dca dc =>
      have hk : k = dcaTag ++ '_' :: dc.symbol := by
        simpa [wellFormedEntry] using he
      subst hk
      rw [saveStrategies]
      rw [if_neg (by simp [stopLossTag, dcaTag, List.isPrefixOf]),
        if_pos (isPrefixOf_append_self _ _)]
      rw [loadStrategies]
      rw [if_neg (by decide), if_pos rfl]
      rw [hrest]
      rfl
    | trailingStop tc =>
      have hk : k = trailingStopTag ++ '_' :: tc.symbol := by
        simpa [wellFormedEntry] using he
      subst hk
      rw [saveStrategies]
      rw [if_neg (by simp [stopLossTag, trailingStopTag, List.isPrefixOf]),
        if_neg (by simp [dcaTag, trailingStopTag, List.isPrefixOf]),
        if_pos (isPrefixOf_append_self _ _)]
      rw [loadStrategies]
      rw [if_neg (by decide), if_neg (by decide), if_pos rfl]
      rw [hrest]
      rfl

/-- C8 witness: a two-entry mapping — a stop-loss config for BTC-USD and a
DCA config for ETH-USD — saves and loads back to itself from a fresh
parse of the records. -/
theorem strategy_storage_round_trip_witness :
    loadStrategies (saveStrategies
      [(stopLossTag ++ '_' :: ['B', 'T', 'C', '-', 'U', 'S', 'D'],
        .stopLoss ⟨['B', 'T', 'C', '-', 'U', 'S', 'D'], true, 60, 3, 5, 10, 100⟩),
       (dcaTag ++ '_' :: ['E', 'T', 'H', '-', 'U', 'S', 'D'],
        .dca ⟨['E', 'T', 'H', '-', 'U', 'S', 'D'], true, 60, 3, 25, 7, 12⟩)]) =
    .ok [(stopLossTag ++ '_' :: ['B', 'T', 'C', '-', 'U', 'S', 'D'],
        .stopLoss ⟨['B', 'T', 'C', '-', 'U', 'S', 'D'], true, 60, 3, 5, 10, 100⟩),
       (dcaTag ++ '_' :: ['E', 'T', 'H', '-', 'U', 'S', 'D'],
        .dca ⟨['E', 'T', 'H', '-', 'U', 'S', 'D'], true, 60, 3, 25, 7, 12⟩)] :=
  strategy_storage_round_trip _ (by decide)

end Robinhood
